import Mathlib

/-!
# Verification of the IDEAS symbol-dependency resolution engine

A shallow embedding, in Lean 4, of the dependency-resolution core of the
IDEAS repository (`src/ideas/utils.py`, `src/ideas/ast.py`,
`src/ideas/init.py`), together with theorems settling the frozen claims
C1..C10 about it.

Conventions used throughout:

* Python `dict`s are modelled as association lists (`List (String × α)`)
  with Python semantics: assignment to an existing key replaces the value
  in place (keeping its insertion position), assignment to a fresh key
  appends, `del` removes, iteration follows insertion order.
* Python `set`s of strings are modelled as `List String` with membership.
* Machine integers do not overflow in any modelled routine; depths are
  `Nat`, the `max_depth` argument (Python `int | math.inf`) is
  `Option Int` with `none` standing for `math.inf`.
* Fallible code (Python `assert` / raised exceptions) returns `Except`
  or `Option`; unbounded recursion is modelled with an explicit fuel
  argument (`none`/error when the fuel runs out), with the adequacy of a
  concrete fuel bound proven where a claim needs termination.
-/

set_option maxHeartbeats 1000000

namespace Ideas

/-! ## Python dictionary primitives -/

/-- `d[k]` lookup on a Python dict modelled as an association list. -/
def pyLookup {α : Type} : List (String × α) → String → Option α
  | [], _ => none
  | (k, v) :: rest, key => if k = key then some v else pyLookup rest key

/-- `list(d.keys())` in insertion order. -/
def pyKeys {α : Type} (d : List (String × α)) : List String :=
  d.map Prod.fst

/-- `d[k] = v`: replace the (unique) existing entry in place if the key
exists, else append.  A Python dict never holds two entries with the same
key, so replacing the first occurrence is exact. -/
def pyInsert {α : Type} : List (String × α) → String → α → List (String × α)
  | [], key, v => [(key, v)]
  | (k, w) :: rest, key, v =>
    if k = key then (key, v) :: rest else (k, w) :: pyInsert rest key v

/-- `del d[k]`. -/
def pyRemove {α : Type} (d : List (String × α)) (key : String) :
    List (String × α) :=
  d.filter (fun p => p.1 ≠ key)

/-- `d.update(d2)`: assign every entry of `d2` into `d` in order. -/
def pyUpdate {α : Type} (d d2 : List (String × α)) : List (String × α) :=
  d2.foldl (fun acc p => pyInsert acc p.1 p.2) d

/-- Helper for `pyIn`: is `a` a contiguous sublist of the second list? -/
def subChars (a : List Char) : List Char → Bool
  | [] => a.isEmpty
  | c :: t => a.isPrefixOf (c :: t) || subChars a t

/-- Python `a in b` on strings: substring test. -/
def pyIn (a b : String) : Bool :=
  subChars a.toList b.toList

@[simp]
theorem pyLookup_nil {α : Type} (key : String) :
    pyLookup ([] : List (String × α)) key = none := rfl

@[simp]
theorem pyLookup_cons {α : Type} (k : String) (v : α) (rest : List (String × α))
    (key : String) :
    pyLookup ((k, v) :: rest) key = if k = key then some v else pyLookup rest key := rfl

theorem pyLookup_mem {α : Type} :
    ∀ (d : List (String × α)) (key : String) (v : α),
      pyLookup d key = some v → (key, v) ∈ d := by
  intro d
  induction d with
  | nil => intro key v h; simp [pyLookup] at h
  | cons p rest ih =>
    intro key v h
    rcases p with ⟨k, w⟩
    by_cases hk : k = key
    · subst hk
      simp [pyLookup] at h
      subst h
      exact List.mem_cons_self _ _
    · simp [pyLookup, hk] at h
      exact List.mem_cons_of_mem _ (ih key v h)

theorem pyLookup_some_mem_keys {α : Type} (d : List (String × α)) (key : String)
    (v : α) (h : pyLookup d key = some v) : key ∈ pyKeys d := by
  have := pyLookup_mem d key v h
  exact List.mem_map.mpr ⟨(key, v), this, rfl⟩

theorem pyLookup_pyInsert {α : Type} :
    ∀ (d : List (String × α)) (key key' : String) (v : α),
      pyLookup (pyInsert d key v) key' =
        if key = key' then some v else pyLookup d key' := by
  intro d
  induction d with
  | nil =>
    intro key key' v
    by_cases h : key = key' <;> simp [pyInsert, pyLookup, h]
  | cons p rest ih =>
    intro key key' v
    rcases p with ⟨k, w⟩
    by_cases hk : k = key
    · subst hk
      by_cases hk' : k = key' <;> simp [pyInsert, pyLookup, hk']
    · by_cases hk' : k = key'
      · subst hk'
        simp [pyInsert, pyLookup, hk]
        rw [if_neg (fun h => hk h.symm)]
      · simp [pyInsert, pyLookup, hk, hk']
        exact ih key key' v

theorem pyInsert_ne_nil {α : Type} (d : List (String × α)) (key : String) (v : α) :
    pyInsert d key v ≠ [] := by
  cases d with
  | nil => simp [pyInsert]
  | cons p rest =>
    rcases p with ⟨k, w⟩
    by_cases hk : k = key <;> simp [pyInsert, hk]

theorem pyKeys_pyInsert_self {α : Type} (d : List (String × α)) (key : String)
    (v : α) : key ∈ pyKeys (pyInsert d key v) := by
  apply pyLookup_some_mem_keys (v := v)
  rw [pyLookup_pyInsert]
  simp

/-! ## `src/ideas/utils.py` -/

/-- The clang cursor kinds used by the engine (`clang.cindex.CursorKind`
values referenced in `ast.py`), plus a few ordinary kinds occurring inside
declarations so that concrete example trees can be written. -/
inductive CursorKindM where
  | FUNCTION_DECL
  | TYPEDEF_DECL
  | VAR_DECL
  | STRUCT_DECL
  | UNION_DECL
  | ENUM_DECL
  | ENUM_CONSTANT_DECL
  | CALL_EXPR
  | TYPE_REF
  | DECL_REF_EXPR
  | FIELD_DECL
  | PARM_DECL
  | COMPOUND_STMT
  | RETURN_STMT
  | INTEGER_LITERAL
  | TRANSLATION_UNIT
  deriving DecidableEq, Repr

/-- `utils.Symbol`.  The Python dataclass stores a `cursor` object in its
second slot; `extract_info_c` actually passes the node's *kind* there
(`Symbol(name, kind, decl)`), so for the harvested symbols the slot is a
cursor kind, which is what we model. -/
structure Symbol where
  name : String
  cursor : CursorKindM
  decl : String := ""
  usr : Option String := none
  deriving DecidableEq, Repr

/-- `_depth > max_depth` where `max_depth : int | math.inf`
(`none` = `math.inf`). -/
def depthExceeded (depth : Nat) (maxDepth : Option Int) : Bool :=
  match maxDepth with
  | none => false
  | some m => (depth : Int) > m

/-- The dependency cache threaded through `get_all_deps`. -/
abbrev Cache := List (String × List Symbol)

/-- The `for dep_symbol in current_deps:` loop body of `get_all_deps`
(`utils.py` lines 71-96).  `child` performs the recursive call (it is
`get_all_deps` at one less fuel); the accumulator is
(`expanded_deps`, `seen_names`, the threaded cache). -/
def gadLoop (child : String → Cache → Option (List Symbol × Cache))
    (name : String) (cutoffs : List String) :
    List Symbol → List Symbol → List String → Cache →
    Option (List Symbol × List String × Cache)
  | [], expanded, seen, cache => some (expanded, seen, cache)
  | dep :: rest, expanded, seen, cache =>
    if dep.name ∈ cutoffs then
      gadLoop child name cutoffs rest expanded seen cache
    else
      match child dep.name cache with
      | none => none
      | some (transDeps, cache') =>
        let es := transDeps.foldl
          (fun (p : List Symbol × List String) t =>
            if t.name ∉ p.2 ∧ t.name ≠ name then (p.1 ++ [t], p.2 ++ [t.name])
            else p)
          (expanded, seen)
        let es2 :=
          if dep.name ∉ es.2 ∧ dep.name ≠ name then
            (es.1 ++ [dep], es.2 ++ [dep.name])
          else es
        gadLoop child name cutoffs rest es2.1 es2.2 cache'

/-- `utils.get_all_deps`, with an explicit fuel bounding the recursion
depth (`none` when the fuel is exhausted; `get_all_deps_fuel_sufficient`
below proves that `(number of graph keys) + 1` fuel always suffices, so
the Python recursion terminates).

The second returned component is the content of the *caller-supplied*
cache dict after the call.  Python checks `if not cache: cache = dict()`:
when the received dict is falsy (empty), the function rebinds `cache` to
a fresh dict, so every write it performs is invisible to its caller — we
model this by returning the received cache unchanged in that case.  The
fresh dict starts empty, exactly like the received one, so the computed
result is unaffected.  (`cutoffs` and `_visited` get the same falsy
treatment in Python, but they are never mutated in a caller-visible way:
`_visited` receives balanced `add`/`remove` pairs, `cutoffs` is read
only; so passing them down by value is exact.)

Order of the checks mirrors the source: cache hit first (line 55), then
the visited-set / depth-limit early return (line 57), then the
missing-key early return (line 62), then the dependency loop. -/
def get_all_deps :
    Nat → List (String × List Symbol) → String → List String → Cache →
    Option Int → List String → Nat → Option (List Symbol × Cache)
  | 0, _, _, _, _, _, _, _ => none
  | fuel + 1, graph, name, cutoffs, cacheArg, maxDepth, visited, depth =>
    match pyLookup cacheArg name with
    | some cached => some (cached, cacheArg)
    | none =>
      if name ∈ visited ∨ depthExceeded depth maxDepth then
        some ([], cacheArg)
      else
        match pyLookup graph name with
        | none =>
          some ([], if cacheArg = [] then cacheArg else pyInsert cacheArg name [])
        | some current_deps =>
          match gadLoop
              (fun n c =>
                get_all_deps fuel graph n cutoffs c maxDepth (name :: visited)
                  (depth + 1))
              name cutoffs current_deps [] [] cacheArg with
          | none => none
          | some (expanded, _, cacheOut) =>
            some (expanded,
              if cacheArg = [] then cacheArg
              else pyInsert cacheOut name expanded)
termination_by structural fuel => fuel

/-- Fuel that always suffices for `get_all_deps` (proved below). -/
def gadFuel (graph : List (String × List Symbol)) : Nat :=
  (pyKeys graph).length + 1

/-- The entry-point call `get_all_deps(graph, name, cutoffs, cache,
max_depth)` with its default `_visited = ∅`, `_depth = 0`, run with
sufficient fuel. -/
def get_all_deps_run (graph : List (String × List Symbol)) (name : String)
    (cutoffs : List String) (cache : Cache) (maxDepth : Option Int) :
    List Symbol × Cache :=
  (get_all_deps (gadFuel graph) graph name cutoffs cache maxDepth [] 0).getD
    ([], cache)

-- The repository's own regression test (`test/test_graph_deps.py`),
-- checked by evaluation: 8-node graph with a direct cycle A→G→A, a
-- self-loop E→E and an isolated self-loop H→H.
section GadSanity

private def tg : List (String × List Symbol) :=
  [("A", [⟨"B", .FUNCTION_DECL, "", none⟩, ⟨"C", .FUNCTION_DECL, "", none⟩,
          ⟨"D", .FUNCTION_DECL, "", none⟩, ⟨"G", .FUNCTION_DECL, "", none⟩]),
   ("B", [⟨"D", .FUNCTION_DECL, "", none⟩]),
   ("C", [⟨"D", .FUNCTION_DECL, "", none⟩, ⟨"E", .FUNCTION_DECL, "", none⟩]),
   ("D", []),
   ("E", [⟨"E", .FUNCTION_DECL, "", none⟩, ⟨"F", .FUNCTION_DECL, "", none⟩]),
   ("F", []),
   ("G", [⟨"A", .FUNCTION_DECL, "", none⟩]),
   ("H", [⟨"H", .FUNCTION_DECL, "", none⟩])]

example :
    (get_all_deps_run tg "A" [] [] none).1.map Symbol.name =
      ["D", "B", "F", "E", "C", "G"] := by decide

example :
    (get_all_deps_run tg "G" [] [] none).1.map Symbol.name =
      ["D", "B", "F", "E", "C", "A"] := by decide

example : (get_all_deps_run tg "E" [] [] none).1.map Symbol.name = ["F"] := by
  decide

example : (get_all_deps_run tg "H" [] [] none).1.map Symbol.name = [] := by
  decide

end GadSanity

/-! ## Lemmas about `get_all_deps` -/

/-- Strictly fewer list elements satisfy a strictly stronger filter. -/
theorem filter_length_lt {α : Type} (l : List α) (p q : α → Bool)
    (himp : ∀ x, q x = true → p x = true) (x : α) (hx : x ∈ l) (hpx : p x = true)
    (hqx : q x = false) : (l.filter q).length < (l.filter p).length := by
  have hmono : ∀ zs : List α, (zs.filter q).length ≤ (zs.filter p).length := by
    intro zs
    induction zs with
    | nil => simp
    | cons z zr ihz =>
      simp only [List.filter_cons]
      cases hq : q z
      · cases hp : p z <;> simp <;> omega
      · rw [himp z hq]; simp; omega
  induction l with
  | nil => cases hx
  | cons y ys ih =>
    rcases List.mem_cons.mp hx with rfl | hmem
    · simp only [List.filter_cons, hpx, hqx]
      have := hmono ys
      simp
      omega
    · have hle := ih hmem
      simp only [List.filter_cons]
      cases hq : q y
      · cases hp : p y <;> simp <;> omega
      · rw [himp y hq]; simp; omega

/-- Every symbol in a result list avoids the cutoffs and differs from the
queried name. -/
def gadResOk (cutoffs : List String) (name : String) (res : List Symbol) : Prop :=
  ∀ s ∈ res, s.name ∉ cutoffs ∧ s.name ≠ name

/-- Every cache entry satisfies `gadResOk` for its own key. -/
def gadCacheOk (cutoffs : List String) (c : Cache) : Prop :=
  ∀ k l, pyLookup c k = some l → gadResOk cutoffs k l

theorem gadCacheOk_nil (cutoffs : List String) : gadCacheOk cutoffs [] := by
  intro k l h
  simp at h

theorem gadCacheOk_pyInsert (cutoffs : List String) (c : Cache) (key : String)
    (l : List Symbol) (hc : gadCacheOk cutoffs c) (hl : gadResOk cutoffs key l) :
    gadCacheOk cutoffs (pyInsert c key l) := by
  intro k m h
  rw [pyLookup_pyInsert] at h
  by_cases hk : key = k
  · subst hk
    simp at h
    subst h
    exact hl
  · rw [if_neg hk] at h
    exact hc k m h

theorem gad_fold_preserve (name : String) (cutoffs : List String) :
    ∀ (ts : List Symbol), (∀ t ∈ ts, t.name ∉ cutoffs) →
      ∀ p : List Symbol × List String, gadResOk cutoffs name p.1 →
        gadResOk cutoffs name
          (ts.foldl
            (fun p t =>
              if t.name ∉ p.2 ∧ t.name ≠ name then (p.1 ++ [t], p.2 ++ [t.name])
              else p)
            p).1 := by
  intro ts
  induction ts with
  | nil => intro _ p hp; simpa using hp
  | cons t tr ih =>
    intro hts p hp
    simp only [List.foldl_cons]
    apply ih (fun u hu => hts u (List.mem_cons_of_mem _ hu))
    by_cases hcond : t.name ∉ p.2 ∧ t.name ≠ name
    · rw [if_pos hcond]
      intro s hs
      rcases List.mem_append.mp hs with h1 | h2
      · exact hp s h1
      · have : s = t := by simpa using h2
        subst this
        exact ⟨hts s (List.mem_cons_self _ _), hcond.2⟩
    · rw [if_neg hcond]
      exact hp

theorem gadLoop_inv (name : String) (cutoffs : List String)
    (child : String → Cache → Option (List Symbol × Cache))
    (hchild : ∀ n c res c', gadCacheOk cutoffs c → child n c = some (res, c') →
      gadResOk cutoffs n res ∧ gadCacheOk cutoffs c') :
    ∀ (deps expanded : List Symbol) (seen : List String) (cache : Cache)
      (out : List Symbol × List String × Cache),
      gadCacheOk cutoffs cache → gadResOk cutoffs name expanded →
      gadLoop child name cutoffs deps expanded seen cache = some out →
      gadResOk cutoffs name out.1 ∧ gadCacheOk cutoffs out.2.2 := by
  intro deps
  induction deps with
  | nil =>
    intro expanded seen cache out hc he h
    rw [gadLoop] at h
    cases h
    exact ⟨he, hc⟩
  | cons dep rest ih =>
    intro expanded seen cache out hc he h
    by_cases hcut : dep.name ∈ cutoffs
    · rw [gadLoop, if_pos hcut] at h
      exact ih expanded seen cache out hc he h
    · rw [gadLoop, if_neg hcut] at h
      cases hch : child dep.name cache with
      | none => rw [hch] at h; cases h
      | some pr =>
        rcases pr with ⟨transDeps, cache'⟩
        rw [hch] at h
        simp only [] at h
        obtain ⟨htrans, hcache'⟩ := hchild dep.name cache transDeps cache' hc hch
        set es := transDeps.foldl
          (fun (p : List Symbol × List String) t =>
            if t.name ∉ p.2 ∧ t.name ≠ name then (p.1 ++ [t], p.2 ++ [t.name])
            else p)
          (expanded, seen) with hes
        have hes1 : gadResOk cutoffs name es.1 := by
          apply gad_fold_preserve name cutoffs transDeps
            (fun t ht => (htrans t ht).1) (expanded, seen)
          exact he
        set es2 :=
          if dep.name ∉ es.2 ∧ dep.name ≠ name then
            (es.1 ++ [dep], es.2 ++ [dep.name])
          else es with hes2
        have hes21 : gadResOk cutoffs name es2.1 := by
          rw [hes2]
          by_cases hcond : dep.name ∉ es.2 ∧ dep.name ≠ name
          · rw [if_pos hcond]
            intro s hs
            rcases List.mem_append.mp hs with h1 | h2
            · exact hes1 s h1
            · have : s = dep := by simpa using h2
              subst this
              exact ⟨hcut, hcond.2⟩
          · rw [if_neg hcond]
            exact hes1
        exact ih es2.1 es2.2 cache' out hcache' hes21 h

/-- Main invariant of `get_all_deps`: starting from a cache whose entries
all satisfy `gadResOk`, the returned list contains neither the queried
name nor any cutoff name, and the returned cache satisfies the same
invariant. -/
theorem get_all_deps_inv :
    ∀ (fuel : Nat) (graph : List (String × List Symbol)) (name : String)
      (cutoffs : List String) (cacheArg : Cache) (maxDepth : Option Int)
      (visited : List String) (depth : Nat) (out : List Symbol × Cache),
      gadCacheOk cutoffs cacheArg →
      get_all_deps fuel graph name cutoffs cacheArg maxDepth visited depth =
        some out →
      gadResOk cutoffs name out.1 ∧ gadCacheOk cutoffs out.2 := by
  intro fuel
  induction fuel with
  | zero =>
    intro graph name cutoffs cacheArg maxDepth visited depth out _ h
    simp [get_all_deps] at h
  | succ f ih =>
    intro graph name cutoffs cacheArg maxDepth visited depth out hc h
    rw [get_all_deps] at h
    split at h
    · -- cache hit
      rename_i cached hcache
      cases h
      exact ⟨hc name cached hcache, hc⟩
    · rename_i hcache
      split at h
      · -- visited / depth-limit early return
        cases h
        exact ⟨fun s hs => absurd hs (List.not_mem_nil s), hc⟩
      · split at h
        · -- name absent from the graph
          cases h
          constructor
          · intro s hs; cases hs
          · by_cases hemp : cacheArg = []
            · simpa [hemp] using hc
            · simp only [hemp, if_false]
              exact gadCacheOk_pyInsert cutoffs cacheArg name [] hc
                (by intro s hs; cases hs)
        · -- dependency loop
          rename_i current_deps hgraph
          split at h
          · cases h
          · rename_i expanded seen cacheOut hloop
            cases h
            have hout := gadLoop_inv name cutoffs _
              (fun n c res c' hcc hcall =>
                ih graph n cutoffs c maxDepth (name :: visited) (depth + 1)
                  (res, c') hcc hcall)
              current_deps [] [] cacheArg (expanded, seen, cacheOut) hc
              (by intro s hs; cases hs) hloop
            constructor
            · exact hout.1
            · by_cases hemp : cacheArg = []
              · simpa [hemp] using hc
              · simp only [hemp, if_false]
                exact gadCacheOk_pyInsert cutoffs cacheOut name expanded
                  hout.2 hout.1

theorem gadLoop_total (name : String) (cutoffs : List String)
    (child : String → Cache → Option (List Symbol × Cache))
    (hchild : ∀ n c, child n c ≠ none) :
    ∀ (deps expanded : List Symbol) (seen : List String) (cache : Cache),
      gadLoop child name cutoffs deps expanded seen cache ≠ none := by
  intro deps
  induction deps with
  | nil => intro expanded seen cache; simp [gadLoop]
  | cons dep rest ih =>
    intro expanded seen cache
    by_cases hcut : dep.name ∈ cutoffs
    · rw [gadLoop, if_pos hcut]
      exact ih expanded seen cache
    · rw [gadLoop, if_neg hcut]
      cases hch : child dep.name cache with
      | none => exact absurd hch (hchild dep.name cache)
      | some pr =>
        rcases pr with ⟨transDeps, cache'⟩
        exact ih _ _ cache'

/-- Fuel adequacy: the number of graph keys not yet on the visited path,
plus one, bounds the recursion depth of `get_all_deps`. -/
theorem get_all_deps_total :
    ∀ (fuel : Nat) (graph : List (String × List Symbol)) (name : String)
      (cutoffs : List String) (cacheArg : Cache) (maxDepth : Option Int)
      (visited : List String) (depth : Nat),
      ((pyKeys graph).filter (fun k => decide (k ∉ visited))).length < fuel →
      get_all_deps fuel graph name cutoffs cacheArg maxDepth visited depth ≠
        none := by
  intro fuel
  induction fuel with
  | zero => intro graph name cutoffs cacheArg maxDepth visited depth h; omega
  | succ f ih =>
    intro graph name cutoffs cacheArg maxDepth visited depth hfuel
    rw [get_all_deps]
    split
    · simp
    · by_cases hvis : name ∈ visited ∨ depthExceeded depth maxDepth
      · rw [if_pos hvis]; simp
      · rw [if_neg hvis]
        split
        · simp
        · rename_i current_deps hgraph
          have hname_mem : name ∈ pyKeys graph :=
            pyLookup_some_mem_keys graph name current_deps hgraph
          have hname_nvis : name ∉ visited := fun hmem => hvis (Or.inl hmem)
          have hlt :
              ((pyKeys graph).filter
                (fun k => decide (k ∉ name :: visited))).length <
              ((pyKeys graph).filter (fun k => decide (k ∉ visited))).length := by
            apply filter_length_lt (pyKeys graph)
              (fun k => decide (k ∉ visited))
              (fun k => decide (k ∉ name :: visited))
              ?_ name hname_mem (by simpa using hname_nvis) (by simp)
            intro x hx
            simp at hx ⊢
            exact hx.2
          have hchild : ∀ n c,
              get_all_deps f graph n cutoffs c maxDepth (name :: visited)
                (depth + 1) ≠ none := by
            intro n c
            apply ih
            omega
          split
          · rename_i hloop
            exact absurd hloop
              (gadLoop_total name cutoffs _ hchild current_deps [] [] cacheArg)
          · simp

/-! ## Claims about `get_all_deps` (C2, C3, C10) -/

/-- **C2.**  For every finite graph, start name, cutoff set, and depth
limit — including cyclic graphs — `get_all_deps` terminates (the fuel
`gadFuel graph`, one more than the number of graph keys, is never
exhausted), and the returned list contains neither the start name itself
nor any name in the cutoff set. -/
theorem C2_get_all_deps_terminates_and_excludes
    (graph : List (String × List Symbol)) (name : String)
    (cutoffs : List String) (maxDepth : Option Int) :
    ∃ out : List Symbol × Cache,
      get_all_deps (gadFuel graph) graph name cutoffs [] maxDepth [] 0 =
        some out ∧
      ∀ s ∈ out.1, s.name ≠ name ∧ s.name ∉ cutoffs := by
  have hbound :
      ((pyKeys graph).filter (fun k => decide (k ∉ ([] : List String)))).length <
        gadFuel graph := by
    have := List.length_filter_le
      (fun k => decide (k ∉ ([] : List String))) (pyKeys graph)
    unfold gadFuel
    omega
  have htot := get_all_deps_total (gadFuel graph) graph name cutoffs []
    maxDepth [] 0 hbound
  cases hout : get_all_deps (gadFuel graph) graph name cutoffs [] maxDepth [] 0 with
  | none => exact absurd hout htot
  | some out =>
    refine ⟨out, rfl, ?_⟩
    have hinv := get_all_deps_inv (gadFuel graph) graph name cutoffs []
      maxDepth [] 0 out (gadCacheOk_nil cutoffs) hout
    intro s hs
    exact ⟨(hinv.1 s hs).2, (hinv.1 s hs).1⟩

/-- **C3 (counterexample).**  The cache can hold a partially-resolved
entry.  On the graph `A → B, A → C, B → A, C → ∅`, the call
`get_all_deps(graph, "A", cache={"Z": []})` (a non-empty cache, so the
caller-supplied dict is really used) stores `B ↦ [A]` in the cache: when
`B` was expanded, `A` was on the visited path, so `A`'s own dependency
`C` was never collected.  A fresh call on `"B"` with an empty cache and
empty visited set returns `[C, A]` instead. -/
theorem C3_counterexample :
    pyLookup
        ((get_all_deps 4
            [("A", [⟨"B", .FUNCTION_DECL, "", none⟩,
                    ⟨"C", .FUNCTION_DECL, "", none⟩]),
             ("B", [⟨"A", .FUNCTION_DECL, "", none⟩]),
             ("C", [])]
            "A" [] [("Z", [])] none [] 0).getD ([], [])).2 "B" =
      some [⟨"A", .FUNCTION_DECL, "", none⟩] ∧
    ((get_all_deps 4
        [("A", [⟨"B", .FUNCTION_DECL, "", none⟩,
                ⟨"C", .FUNCTION_DECL, "", none⟩]),
         ("B", [⟨"A", .FUNCTION_DECL, "", none⟩]),
         ("C", [])]
        "B" [] [] none [] 0).getD ([], [])).1 =
      [⟨"C", .FUNCTION_DECL, "", none⟩, ⟨"A", .FUNCTION_DECL, "", none⟩] ∧
    ([⟨"A", .FUNCTION_DECL, "", none⟩] : List Symbol) ≠
      [⟨"C", .FUNCTION_DECL, "", none⟩, ⟨"A", .FUNCTION_DECL, "", none⟩] := by
  decide

/-- **C3 (amended).**  What does hold: the cycle-breaking (or
depth-limit) early return itself stores nothing — when the queried name
is not in the cache and is already on the visited path (or the depth
limit is exceeded), `get_all_deps` returns an empty list and leaves the
cache exactly as it received it.  Partial results can still enter the
cache one level up, as the counterexample shows. -/
theorem C3_amended_early_return_caches_nothing
    (fuel : Nat) (graph : List (String × List Symbol)) (name : String)
    (cutoffs : List String) (cacheArg : Cache) (maxDepth : Option Int)
    (visited : List String) (depth : Nat) (out : List Symbol × Cache)
    (hnc : pyLookup cacheArg name = none)
    (hearly : name ∈ visited ∨ depthExceeded depth maxDepth = true)
    (h : get_all_deps fuel graph name cutoffs cacheArg maxDepth visited depth =
      some out) :
    out = ([], cacheArg) := by
  cases fuel with
  | zero => simp [get_all_deps] at h
  | succ f =>
    rw [get_all_deps] at h
    split at h
    · rename_i cached hcache
      rw [hnc] at hcache
      cases hcache
    · split at h
      · cases h; rfl
      · rename_i hcond
        exact absurd (by simpa using hearly) hcond

theorem C3_amended_early_return_caches_nothing_witness :
    ("A" ∈ ["A"] ∨ depthExceeded 0 none = true) ∧
    (get_all_deps 3 [("A", [⟨"B", .FUNCTION_DECL, "", none⟩])] "A" [] [("q", [])]
        none ["A"] 0).getD ([], []) = ([], [("q", [])]) := by
  refine ⟨Or.inl (by decide), ?_⟩
  exact C3_amended_early_return_caches_nothing 3
    [("A", [⟨"B", .FUNCTION_DECL, "", none⟩])] "A" [] [("q", [])] none ["A"] 0
    _ (by decide) (Or.inl (by decide)) (by decide)

/-- **C10.**  Frame property of the caller-supplied cache dict.  Python
replaces a falsy (`None` or empty) `cache` argument by a fresh dict, so:
(a) a call that receives an empty cache leaves it empty — no memoized
entry ever becomes visible to that caller; (b) a call that receives a
non-empty cache (with the queried name not already cached and the depth
limit not already exceeded at entry) stores an entry for the queried
name into it. -/
theorem C10_cache_frame :
    (∀ (graph : List (String × List Symbol)) (name : String)
       (cutoffs : List String) (maxDepth : Option Int) (fuel : Nat)
       (out : List Symbol × Cache),
       get_all_deps fuel graph name cutoffs [] maxDepth [] 0 = some out →
       out.2 = []) ∧
    (∀ (graph : List (String × List Symbol)) (name : String)
       (cutoffs : List String) (maxDepth : Option Int) (fuel : Nat)
       (cacheArg : Cache) (out : List Symbol × Cache),
       cacheArg ≠ [] → pyLookup cacheArg name = none →
       depthExceeded 0 maxDepth = false →
       get_all_deps fuel graph name cutoffs cacheArg maxDepth [] 0 = some out →
       name ∈ pyKeys out.2) := by
  constructor
  · intro graph name cutoffs maxDepth fuel out h
    cases fuel with
    | zero => simp [get_all_deps] at h
    | succ f =>
      rw [get_all_deps] at h
      split at h
      · rename_i cached hcache
        simp at hcache
      · split at h
        · cases h; rfl
        · split at h
          · cases h; simp
          · split at h
            · cases h
            · cases h; simp
  · intro graph name cutoffs maxDepth fuel cacheArg out hne hnc hd h
    cases fuel with
    | zero => simp [get_all_deps] at h
    | succ f =>
      rw [get_all_deps] at h
      split at h
      · rename_i cached hcache
        rw [hnc] at hcache
        cases hcache
      · split at h
        · rename_i hcond
          rcases hcond with hm | hdep
          · cases hm
          · rw [hd] at hdep
            cases hdep
        · split at h
          · cases h
            simp only [hne, if_false]
            exact pyKeys_pyInsert_self cacheArg name []
          · split at h
            · cases h
            · rename_i expanded seen cacheOut hloop
              cases h
              simp only [hne, if_false]
              exact pyKeys_pyInsert_self cacheOut name expanded

theorem C10_cache_frame_witness :
    (get_all_deps 2 [("X", [])] "X" [] [] none [] 0).getD ([], [("junk", [])]) =
      (([] : List Symbol), ([] : Cache)) ∧
    (([("seed", [])] : Cache) ≠ [] ∧
      "X" ∈ pyKeys
        ((get_all_deps 2 [("X", [])] "X" [] [("seed", [])] none [] 0).getD
          ([], [])).2) := by
  constructor
  · have h : get_all_deps 2 [("X", [])] "X" [] [] none [] 0 =
        some (([] : List Symbol), ([] : Cache)) := by decide
    have := C10_cache_frame.1 [("X", [])] "X" [] none 2 ([], []) h
    rw [h]
    rfl
  · refine ⟨by decide, ?_⟩
    exact C10_cache_frame.2 [("X", [])] "X" [] none 2 [("seed", [])] _
      (by decide) (by decide) (by decide) (by decide)

/-! ## `src/ideas/ast.py` -/

/-- The token kinds used by `get_declaration_range`. -/
inductive TokenKindM where
  | PUNCTUATION
  | KEYWORD
  | IDENTIFIER
  | LITERAL
  | COMMENT
  deriving DecidableEq, Repr

/-- A source location: owning file plus byte offset. -/
structure SourceLocM where
  file : String
  offset : Nat
  deriving DecidableEq, Repr

/-- A source range.  The Python attribute `end` is a Lean keyword, so the
field is called `stop` here. -/
structure SourceRangeM where
  start : SourceLocM
  stop : SourceLocM
  deriving DecidableEq, Repr

/-- A lexed token with its kind, spelling and extent. -/
structure TokenM where
  kind : TokenKindM
  spelling : String
  extent : SourceRangeM
  deriving DecidableEq, Repr

/-- A clang cursor, restricted to the observables the harvester reads:
spelling, kind, USR, definition flag, extent, token stream and children. -/
inductive CursorM where
  | node (spelling : String) (kind : CursorKindM) (usr : String)
      (isDefinition : Bool) (extent : SourceRangeM) (tokens : List TokenM)
      (children : List CursorM)

def CursorM.spelling : CursorM → String
  | .node s _ _ _ _ _ _ => s

def CursorM.kind : CursorM → CursorKindM
  | .node _ k _ _ _ _ _ => k

def CursorM.usr : CursorM → String
  | .node _ _ u _ _ _ _ => u

def CursorM.isDefinition : CursorM → Bool
  | .node _ _ _ d _ _ _ => d

def CursorM.extent : CursorM → SourceRangeM
  | .node _ _ _ _ e _ _ => e

def CursorM.tokens : CursorM → List TokenM
  | .node _ _ _ _ _ t _ => t

def CursorM.children : CursorM → List CursorM
  | .node _ _ _ _ _ _ c => c

mutual
/-- `cursor.walk_preorder()`: the node itself, then the preorder walks of
its children in order. -/
def walkPre : CursorM → List CursorM
  | .node s k u d e t cs => .node s k u d e t cs :: walkPreList cs

def walkPreList : List CursorM → List CursorM
  | [] => []
  | c :: cs => walkPre c ++ walkPreList cs
end

/-- `ast.REF_NODE_KIND`. -/
def REF_NODE_KIND : List CursorKindM :=
  [.CALL_EXPR, .TYPE_REF, .DECL_REF_EXPR]

/-- `ast.DECL_NODE_KIND`. -/
def DECL_NODE_KIND : List CursorKindM :=
  [.FUNCTION_DECL, .TYPEDEF_DECL, .VAR_DECL, .STRUCT_DECL, .UNION_DECL,
   .ENUM_DECL]

/-- `ast.DATA_STRUCT_NODE_MAP` as a partial function from kind to the tag
word. -/
def dataStructWord : CursorKindM → Option String
  | .STRUCT_DECL => some "struct"
  | .UNION_DECL => some "union"
  | .ENUM_DECL => some "enum"
  | .ENUM_CONSTANT_DECL => some "enum"
  | _ => none

/-- A parsed translation unit: the contents of the files it spans, plus
its root cursor. -/
structure TU where
  fileContents : List (String × String)
  cursor : CursorM

/-- `ast.get_code_from_tu_range`, runtime semantics.

The Python function opens with `assert source_range.start.file !=
source_range.end.file`.  `clang.cindex.File` defines no value equality,
so `!=` between the two freshly-wrapped `File` objects is an identity
comparison and is always true; the assert never fails (the repository's
own tests, e.g. `test_extract_code_from_tu.py`, drive same-file ranges
through this function and pass).  The runtime model therefore performs
no check: it fetches the contents of the *start* file (missing file
degrades to `""`, lines 208-209) and slices bytes
`[start.offset, end.offset)` — even when the end location lies in a
different file.  `get_code_from_tu_range_checked` below models the
literal text of the assert under value equality instead. -/
def get_code_from_tu_range (tu : TU) (source_range : SourceRangeM) : String :=
  match pyLookup tu.fileContents source_range.start.file with
  | none => ""
  | some code =>
    String.mk
      ((code.toList.drop source_range.start.offset).take
        (source_range.stop.offset - source_range.start.offset))

/-- The literal reading of `get_code_from_tu_range`'s opening
`assert source_range.start.file != source_range.end.file` with `!=` as
*value* inequality of the two files: the assert fails — the function
aborts — exactly when start and end lie in the *same* file, and passes
(then slices the start file) when they lie in different files. -/
def get_code_from_tu_range_checked (tu : TU) (source_range : SourceRangeM) :
    Except String String :=
  if source_range.start.file ≠ source_range.stop.file then
    .ok (get_code_from_tu_range tu source_range)
  else
    .error ("AssertionError: " ++ source_range.start.file ++ " != " ++
      source_range.stop.file)

/-- The token loop of `ast.get_declaration_range`, carrying `prev_token`. -/
def declRangeLoop (node : CursorM) (stop_set : List String) :
    List TokenM → Option TokenM → Except String SourceRangeM
  | [], _ => .ok node.extent
  | t :: ts, prev_token =>
    if t.kind ≠ .PUNCTUATION ∨ t.spelling ∉ stop_set then
      declRangeLoop node stop_set ts (some t)
    else
      match prev_token with
      | none => .error "AssertionError: prev_token is not None"
      | some p => .ok ⟨node.extent.start, p.extent.stop⟩

/-- `ast.get_declaration_range`: for functions stop before the opening
body brace, for variables before the initializer `=`; other kinds use
the node's full extent. -/
def get_declaration_range (node : CursorM) : Except String SourceRangeM :=
  let stop_set : List String :=
    if node.kind = .FUNCTION_DECL then ["\x7b"]
    else if node.kind = .VAR_DECL then ["="]
    else []
  declRangeLoop node stop_set node.tokens none

/-- `ast.extract_referenced_symbols`: walk the full subtree and collect a
`Symbol(spelling, kind)` for every reference-kind occurrence, in order,
without deduplication — and without any resolution or self-reference
filtering. -/
def extract_referenced_symbols (node : CursorM) : List Symbol :=
  (walkPre node).foldl
    (fun acc n =>
      if n.kind ∈ REF_NODE_KIND then acc ++ [⟨n.spelling, n.kind, "", none⟩]
      else acc)
    []

/-- Modelled from the spec: `filter_edges_by_set` is imported by `ast.py`
from `ideas.utils` but its definition is not present under `src/`.  The
spec describes the top-level reference graph as retaining only edges to
declared entities (§4.1: "drop unresolved ... occurrences"; §4.3:
"retaining only edges between names in `validNames`"), so it keeps
exactly the edge symbols whose name lies in the given valid-name set. -/
def filter_edges_by_set (edges : List Symbol) (names : List String) :
    List Symbol :=
  edges.filter (fun s => s.name ∈ names)

/-- `ast.TreeResult`. -/
structure TreeResult where
  symbols : List (String × Symbol) := []
  fn_definitions : List (String × String) := []
  complete_graph : List (String × List Symbol) := []
  top_level_ref_graph : List (String × List Symbol) := []
  deriving DecidableEq, Repr

instance exceptDecEq {ε α : Type} [DecidableEq ε] [DecidableEq α] :
    DecidableEq (Except ε α) := fun x y =>
  match x, y with
  | .error a, .error b =>
    if h : a = b then .isTrue (by rw [h])
    else .isFalse (by intro hc; cases hc; exact h rfl)
  | .ok a, .ok b =>
    if h : a = b then .isTrue (by rw [h])
    else .isFalse (by intro hc; cases hc; exact h rfl)
  | .error _, .ok _ => .isFalse (by intro hc; cases hc)
  | .ok _, .error _ => .isFalse (by intro hc; cases hc)

/-- `defaultdict(list)` element append:
`graph[key].append(sym)`. -/
def pyAppend (g : List (String × List Symbol)) (key : String) (s : Symbol) :
    List (String × List Symbol) :=
  pyInsert g key ((pyLookup g key).getD [] ++ [s])

/-- The per-child body of the enumerator loops in the nameless and
data-structure arms of `extract_info_c`: linking each enum constant to
the enclosing tag symbol `sym`. -/
def enumChildLink (sym : Symbol) (r : TreeResult) (child : CursorM) :
    TreeResult :=
  if child.kind = .ENUM_CONSTANT_DECL then
    { r with complete_graph := pyAppend r.complete_graph child.spelling sym }
  else r

/-- The per-child body of the typedef arm's full-subtree walk
(`extract_info_c` lines 125-144): suppress a nested struct/union tag
whose text is contained in the typedef's own declaration text (failing
fast if the tag's harvested name equals the typedef's name), and link
each nested enumerator to the typedef symbol `tdsym`. -/
def typedefWalkStep (name previous_name : String) (tdsym : Symbol)
    (r : TreeResult) (child : CursorM) : Except String TreeResult := do
  match dataStructWord child.kind with
  | none => pure r
  | some cword =>
    let full_name := cword ++ " " ++ previous_name
    -- suppress the data structure and force a dependence on the typedef
    let r ←
      if child.kind = .STRUCT_DECL ∨ child.kind = .UNION_DECL then
        match pyLookup r.symbols full_name with
        | some fsym =>
          if pyIn fsym.decl tdsym.decl then
            if full_name = name then
              Except.error
                "AssertionError: Typedef cannot be named the same as its underlying data structure!"
            else
              pure { r with
                     symbols := pyRemove r.symbols full_name,
                     complete_graph := pyAppend r.complete_graph full_name tdsym }
          else pure r
        | none => pure r
      else pure r
    -- register a dependency on the typedef for each nested enumerator
    if child.kind = .ENUM_CONSTANT_DECL then
      pure { r with complete_graph := pyAppend r.complete_graph child.spelling tdsym }
    else
      pure r

/-- One iteration of the top-level loop of `ast.extract_info_c` (lines
75-151): classify the node, update the harvest state, then record the
node's referenced symbols under its (possibly rewritten) name.  The state
is `(result, previous_name)`. -/
def processTopLevel (tu : TU) (st : TreeResult × String) (node : CursorM) :
    Except String (TreeResult × String) := do
  let result := st.1
  let previous_name := st.2
  let name := node.spelling
  let kind := node.kind
  let usr := node.usr
  let decl_range ← get_declaration_range node
  let decl := get_code_from_tu_range tu decl_range
  let (result, previous_name, name) ←
    if name = "" then
      -- nameless symbols
      match dataStructWord kind with
      | none =>
        Except.error
          "AssertionError: An unexpected nameless declaration was encountered"
      | some word =>
        let pseudo_name := word ++ " " ++ usr
        let sym : Symbol := ⟨pseudo_name, kind, decl, none⟩
        let result :=
          { result with symbols := pyInsert result.symbols pseudo_name sym }
        -- register a dependency on the underlying enum for each enumerator;
        -- `result.symbols[pseudo_name]` is the symbol just inserted
        let result := node.children.foldl (enumChildLink sym) result
        pure (result, usr, name)
    else if kind = .FUNCTION_DECL ∧ node.isDefinition then
      -- function definition
      let sym : Symbol := ⟨name, kind, decl, none⟩
      let fn_defn := get_code_from_tu_range tu node.extent
      pure ({ result with
              symbols := pyInsert result.symbols name sym,
              fn_definitions := pyInsert result.fn_definitions name fn_defn },
            previous_name, name)
    else if (dataStructWord kind).isSome then
      -- data structures: rename to "struct Point" style
      let word := (dataStructWord kind).getD ""
      let original_name := name
      let name := word ++ " " ++ name
      let sym : Symbol := ⟨name, kind, decl, none⟩
      let result :=
        { result with symbols := pyInsert result.symbols name sym }
      -- `result.symbols[name]` below is the symbol just inserted
      let result := node.children.foldl (enumChildLink sym) result
      pure (result, original_name, name)
    else if kind = .TYPEDEF_DECL then
      -- typedefs
      let tdsym : Symbol := ⟨name, kind, decl, none⟩
      let result :=
        { result with symbols := pyInsert result.symbols name tdsym }
      -- walk the entire subtree; `result.symbols[name]` stays the typedef
      -- symbol just inserted (the walk only ever deletes `full_name ≠ name`)
      let result ← (walkPre node).foldlM
        (typedefWalkStep name previous_name tdsym) result
      pure (result, previous_name, name)
    else if kind ∈ DECL_NODE_KIND then
      -- all other declarations
      pure ({ result with
              symbols := pyInsert result.symbols name ⟨name, kind, decl, none⟩ },
            previous_name, name)
    else
      -- no `case` arm matches: Python `match` falls through silently
      pure (result, previous_name, name)
  -- all referenced symbols (line 151)
  pure ({ result with
          complete_graph :=
            pyInsert result.complete_graph name (extract_referenced_symbols node) },
        previous_name)

/-- `ast.extract_info_c`: harvest one translation unit.  Phase 1 walks
the top-level declarations; phase 2 resolves each harvested symbol's
transitive dependencies through `get_all_deps` (with one shared cache
dict that starts empty — and, because of the falsy-cache check in
`get_all_deps`, stays empty) and filters them to harvested names. -/
def extract_info_c (tu : TU) : Except String TreeResult := do
  let st ← tu.cursor.children.foldlM (processTopLevel tu) (({} : TreeResult), "")
  let result := st.1
  let keys := pyKeys result.symbols
  let final := keys.foldl
    (fun (acc : List (String × List Symbol) × Cache) name =>
      let out := get_all_deps_run result.complete_graph name [] acc.2 none
      (pyInsert acc.1 name (filter_edges_by_set out.1 (pyKeys result.symbols)),
       out.2))
    (result.top_level_ref_graph, [])
  pure { result with top_level_ref_graph := final.1 }

/-! ## Claims about the harvester (C1, C6, C7) -/

/-- **C1 (code bug).**  `get_code_from_tu_range` opens with
`assert source_range.start.file != source_range.end.file` — the guard is
*inverted* relative to its intended same-file precondition.  Read with
value equality, the assert fails on every same-file range (where the
claim requires the slice to be returned) and passes on every cross-file
range (where the claim requires an abort), returning a garbage slice of
the start file; at runtime the clang `File` wrappers compare by identity,
so the assert never fires at all and cross-file requests still do not
abort.  Concretely, on a TU with `a.c = "abcdef"` and `b.c = "xyz"`: -/
theorem C1_code_bug :
    (get_code_from_tu_range_checked
        ⟨[("a.c", "abcdef"), ("b.c", "xyz")],
         .node "" .TRANSLATION_UNIT "" false ⟨⟨"a.c", 0⟩, ⟨"a.c", 0⟩⟩ [] []⟩
        ⟨⟨"a.c", 1⟩, ⟨"a.c", 4⟩⟩).isOk = false ∧
    (get_code_from_tu_range_checked
        ⟨[("a.c", "abcdef"), ("b.c", "xyz")],
         .node "" .TRANSLATION_UNIT "" false ⟨⟨"a.c", 0⟩, ⟨"a.c", 0⟩⟩ [] []⟩
        ⟨⟨"a.c", 0⟩, ⟨"b.c", 2⟩⟩).toOption = some "ab" ∧
    get_code_from_tu_range
        ⟨[("a.c", "abcdef"), ("b.c", "xyz")],
         .node "" .TRANSLATION_UNIT "" false ⟨⟨"a.c", 0⟩, ⟨"a.c", 0⟩⟩ [] []⟩
        ⟨⟨"a.c", 1⟩, ⟨"a.c", 4⟩⟩ = "bcd" ∧
    get_code_from_tu_range
        ⟨[("a.c", "abcdef"), ("b.c", "xyz")],
         .node "" .TRANSLATION_UNIT "" false ⟨⟨"a.c", 0⟩, ⟨"a.c", 0⟩⟩ [] []⟩
        ⟨⟨"a.c", 0⟩, ⟨"b.c", 2⟩⟩ = "ab" := by
  decide

/-- The translation unit `int f(){return f();}` with an additional
unresolvable local reference `x` in the body — the C6 counterexample
input. -/
private def tuRecFn : TU :=
  { fileContents := [("file.c", "int f()\x7breturn f();\x7d")],
    cursor :=
      .node "file.c" .TRANSLATION_UNIT "" false
        ⟨⟨"file.c", 0⟩, ⟨"file.c", 20⟩⟩ []
        [.node "f" .FUNCTION_DECL "c:@F@f" true
          ⟨⟨"file.c", 0⟩, ⟨"file.c", 20⟩⟩
          [⟨.KEYWORD, "int", ⟨⟨"file.c", 0⟩, ⟨"file.c", 3⟩⟩⟩,
           ⟨.IDENTIFIER, "f", ⟨⟨"file.c", 4⟩, ⟨"file.c", 5⟩⟩⟩,
           ⟨.PUNCTUATION, "(", ⟨⟨"file.c", 5⟩, ⟨"file.c", 6⟩⟩⟩,
           ⟨.PUNCTUATION, ")", ⟨⟨"file.c", 6⟩, ⟨"file.c", 7⟩⟩⟩,
           ⟨.PUNCTUATION, "\x7b", ⟨⟨"file.c", 7⟩, ⟨"file.c", 8⟩⟩⟩,
           ⟨.KEYWORD, "return", ⟨⟨"file.c", 8⟩, ⟨"file.c", 14⟩⟩⟩,
           ⟨.IDENTIFIER, "f", ⟨⟨"file.c", 15⟩, ⟨"file.c", 16⟩⟩⟩,
           ⟨.PUNCTUATION, "(", ⟨⟨"file.c", 16⟩, ⟨"file.c", 17⟩⟩⟩,
           ⟨.PUNCTUATION, ")", ⟨⟨"file.c", 17⟩, ⟨"file.c", 18⟩⟩⟩,
           ⟨.PUNCTUATION, ";", ⟨⟨"file.c", 18⟩, ⟨"file.c", 19⟩⟩⟩,
           ⟨.PUNCTUATION, "\x7d", ⟨⟨"file.c", 19⟩, ⟨"file.c", 20⟩⟩⟩]
          [.node "" .COMPOUND_STMT "" false
            ⟨⟨"file.c", 7⟩, ⟨"file.c", 20⟩⟩ []
            [.node "f" .CALL_EXPR "" false
              ⟨⟨"file.c", 15⟩, ⟨"file.c", 19⟩⟩ [] [],
             .node "x" .DECL_REF_EXPR "" false
              ⟨⟨"file.c", 15⟩, ⟨"file.c", 16⟩⟩ [] []]]] }


/-- **C6 (counterexample).**  `extract_referenced_symbols` performs no
self-reference and no resolution filtering, so `complete_graph[n]` *can*
contain a `Symbol` named `n` and entries that resolve to no declared
entity.  On `int f(){return f();}` (with an unresolvable reference `x`
in the body), `complete_graph["f"]` contains both the self-reference
`f` and the undeclared `x`, while the symbol table holds only `f`. -/
theorem C6_counterexample :
    (extract_info_c tuRecFn).toOption.map
        (fun r => ((pyLookup r.complete_graph "f").getD []).map Symbol.name) =
      some ["f", "x"] ∧
    (extract_info_c tuRecFn).toOption.map (fun r => pyKeys r.symbols) =
      some ["f"] := by
  decide

theorem foldl_preserve {α β : Type} (f : β → α → β) (P : β → Prop)
    (hf : ∀ b a, P b → P (f b a)) :
    ∀ (l : List α) (b : β), P b → P (l.foldl f b) := by
  intro l
  induction l with
  | nil => intro b hb; simpa using hb
  | cons a as ih =>
    intro b hb
    simp only [List.foldl_cons]
    exact ih _ (hf b a hb)

theorem foldlM_except_preserve {α β : Type} (f : β → α → Except String β)
    (P : β → Prop) (hf : ∀ b a b', P b → f b a = .ok b' → P b') :
    ∀ (l : List α) (b b' : β), P b → l.foldlM f b = .ok b' → P b' := by
  intro l
  induction l with
  | nil =>
    intro b b' hb h
    simp only [List.foldlM, pure, Except.pure] at h
    cases h
    exact hb
  | cons a as ih =>
    intro b b' hb h
    rw [List.foldlM_cons] at h
    cases hfa : f b a with
    | error e =>
      rw [hfa] at h
      simp [Bind.bind, Except.bind] at h
    | ok b1 =>
      rw [hfa] at h
      simp only [Bind.bind, Except.bind] at h
      exact ih b1 b' (hf b a b1 hb hfa) h

theorem enumChildLink_tlrg (sym : Symbol) (r : TreeResult) (child : CursorM) :
    (enumChildLink sym r child).top_level_ref_graph = r.top_level_ref_graph := by
  unfold enumChildLink
  split <;> rfl

theorem typedefWalkStep_tlrg (name previous_name : String) (tdsym : Symbol)
    (r : TreeResult) (child : CursorM) (r' : TreeResult)
    (h : typedefWalkStep name previous_name tdsym r child = .ok r') :
    r'.top_level_ref_graph = r.top_level_ref_graph := by
  unfold typedefWalkStep at h
  split at h
  · simp [pure, Except.pure] at h
    rw [← h]
  · simp only [Bind.bind, Except.bind, pure, Except.pure] at h
    split at h
    · split at h
      · split at h
        · split at h
          · cases h
          · split at h <;> (simp [pure, Except.pure] at h; rw [← h])
        · split at h <;> (simp [pure, Except.pure] at h; rw [← h])
      · split at h <;> (simp [pure, Except.pure] at h; rw [← h])
    · split at h <;> (simp [pure, Except.pure] at h; rw [← h])

theorem processTopLevel_tlrg (tu : TU) (st : TreeResult × String)
    (node : CursorM) (st' : TreeResult × String)
    (h : processTopLevel tu st node = .ok st') :
    st'.1.top_level_ref_graph = st.1.top_level_ref_graph := by
  unfold processTopLevel at h
  cases hdr : get_declaration_range node with
  | error e =>
    rw [hdr] at h
    simp [Bind.bind, Except.bind] at h
  | ok dr =>
    rw [hdr] at h
    simp only [Bind.bind, Except.bind] at h
    split at h
    · -- nameless arm
      split at h
      · simp [pure, Except.pure] at h
      · simp only [pure, Except.pure] at h
        cases h
        simp only []
        exact foldl_preserve (enumChildLink _)
          (fun r => r.top_level_ref_graph = st.1.top_level_ref_graph)
          (fun b a hb => (enumChildLink_tlrg _ b a).trans hb)
          node.children _ rfl
    · split at h
      · -- function definition arm
        simp only [pure, Except.pure] at h
        cases h
        rfl
      · split at h
        · -- data-structure arm
          simp only [pure, Except.pure] at h
          cases h
          simp only []
          exact foldl_preserve (enumChildLink _)
            (fun r => r.top_level_ref_graph = st.1.top_level_ref_graph)
            (fun b a hb => (enumChildLink_tlrg _ b a).trans hb)
            node.children _ rfl
        · split at h
          · -- typedef arm
            cases hw : (walkPre node).foldlM
                (typedefWalkStep node.spelling st.2
                  ⟨node.spelling, node.kind,
                    get_code_from_tu_range tu dr, none⟩)
                { st.1 with
                  symbols := pyInsert st.1.symbols node.spelling
                    ⟨node.spelling, node.kind,
                      get_code_from_tu_range tu dr, none⟩ } with
            | error e =>
              rw [hw] at h
              simp [Bind.bind, Except.bind] at h
            | ok rw' =>
              rw [hw] at h
              simp only [Bind.bind, Except.bind, pure, Except.pure] at h
              cases h
              simp only []
              exact foldlM_except_preserve _
                (fun r => r.top_level_ref_graph = st.1.top_level_ref_graph)
                (fun b a b' hb hba =>
                  (typedefWalkStep_tlrg _ _ _ b a b' hba).trans hb)
                _ _ _ rfl hw
          · split at h
            · -- other recognized declarations
              simp only [pure, Except.pure] at h
              cases h
              rfl
            · -- silent fallthrough
              simp only [pure, Except.pure] at h
              cases h
              rfl

/-- **C6 (amended).**  The exclusion the claim asserts for
`complete_graph` actually holds for the *top-level* reference graph that
`extract_info_c` derives from it: for every harvested translation unit
and every name `n`, the entry `top_level_ref_graph[n]` contains no
symbol named `n` (the expansion through `get_all_deps` drops the queried
name) and every symbol it contains resolves to a harvested declared
entity (`filter_edges_by_set` keeps only names present in the symbol
table).  `complete_graph` itself retains self-references and unresolved
occurrences, as the counterexample shows. -/
theorem C6_amended_top_level_graph (tu : TU) (r : TreeResult)
    (h : extract_info_c tu = .ok r) (n : String) (l : List Symbol)
    (hl : pyLookup r.top_level_ref_graph n = some l) :
    ∀ s ∈ l, s.name ≠ n ∧ s.name ∈ pyKeys r.symbols := by
  rw [extract_info_c] at h
  cases hph : tu.cursor.children.foldlM (processTopLevel tu)
      (({} : TreeResult), "") with
  | error e =>
    rw [hph] at h
    simp [Bind.bind, Except.bind] at h
  | ok st =>
    rw [hph] at h
    simp only [Bind.bind, Except.bind, pure, Except.pure] at h
    have htl : st.1.top_level_ref_graph = [] :=
      foldlM_except_preserve _ (fun s => s.1.top_level_ref_graph = [])
        (fun b a b' hb hba => (processTopLevel_tlrg tu b a b' hba).trans hb)
        _ _ _ rfl hph
    cases h
    have hinv := foldl_preserve
      (fun (acc : List (String × List Symbol) × Cache) name =>
        let out := get_all_deps_run st.1.complete_graph name [] acc.2 none
        (pyInsert acc.1 name
          (filter_edges_by_set out.1 (pyKeys st.1.symbols)), out.2))
      (fun acc => gadCacheOk [] acc.2 ∧
        ∀ n l, pyLookup acc.1 n = some l →
          ∀ s ∈ l, s.name ≠ n ∧ s.name ∈ pyKeys st.1.symbols)
      ?step (pyKeys st.1.symbols) (st.1.top_level_ref_graph, [])
      ⟨gadCacheOk_nil [], ?init⟩
    case init =>
      intro n l hlk
      rw [htl] at hlk
      simp at hlk
    case step =>
      intro acc name hacc
      rcases hacc with ⟨hcache, hentries⟩
      simp only []
      unfold get_all_deps_run
      cases hg : get_all_deps (gadFuel st.1.complete_graph)
          st.1.complete_graph name [] acc.2 none [] 0 with
      | none =>
        refine ⟨hcache, ?_⟩
        intro n l hlk s hs
        rw [pyLookup_pyInsert] at hlk
        by_cases hn : name = n
        · rw [if_pos hn] at hlk
          cases hlk
          simp [filter_edges_by_set] at hs
        · rw [if_neg hn] at hlk
          exact hentries n l hlk s hs
      | some o =>
        have hio := get_all_deps_inv (gadFuel st.1.complete_graph)
          st.1.complete_graph name [] acc.2 none [] 0 o hcache hg
        refine ⟨hio.2, ?_⟩
        intro n l hlk s hs
        rw [pyLookup_pyInsert] at hlk
        by_cases hn : name = n
        · rw [if_pos hn] at hlk
          cases hlk
          subst hn
          simp only [filter_edges_by_set, List.mem_filter] at hs
          refine ⟨(hio.1 s hs.1).2, by simpa using hs.2⟩
        · rw [if_neg hn] at hlk
          exact hentries n l hlk s hs
    exact fun s hs => hinv.2 n l hl s hs

/-- The two-function translation unit used by the C6 witness: `g` calls
`h`.  File contents are absent, so every text retrieval degrades to
`""`. -/
private def tuGH : TU :=
  { fileContents := [],
    cursor :=
      .node "w.c" .TRANSLATION_UNIT "" false
        ⟨⟨"w.c", 0⟩, ⟨"w.c", 0⟩⟩ []
        [.node "g" .FUNCTION_DECL "c:@F@g" true
          ⟨⟨"w.c", 0⟩, ⟨"w.c", 0⟩⟩ []
          [.node "h" .CALL_EXPR "" false ⟨⟨"w.c", 0⟩, ⟨"w.c", 0⟩⟩ [] []],
         .node "h" .FUNCTION_DECL "c:@F@h" true
          ⟨⟨"w.c", 0⟩, ⟨"w.c", 0⟩⟩ [] []] }

/-- The harvest of `tuGH`, spelled out. -/
private def treeGH : TreeResult :=
  { symbols := [("g", ⟨"g", .FUNCTION_DECL, "", none⟩),
                ("h", ⟨"h", .FUNCTION_DECL, "", none⟩)],
    fn_definitions := [("g", ""), ("h", "")],
    complete_graph := [("g", [⟨"h", .CALL_EXPR, "", none⟩]), ("h", [])],
    top_level_ref_graph := [("g", [⟨"h", .CALL_EXPR, "", none⟩]), ("h", [])] }

theorem C6_amended_top_level_graph_witness :
    (⟨"h", .CALL_EXPR, "", none⟩ : Symbol).name ≠ "g" ∧
    (⟨"h", .CALL_EXPR, "", none⟩ : Symbol).name ∈ pyKeys treeGH.symbols :=
  C6_amended_top_level_graph tuGH treeGH (by decide) "g"
    [⟨"h", .CALL_EXPR, "", none⟩] (by decide)
    ⟨"h", .CALL_EXPR, "", none⟩ (by simp)

/-- The translation unit `typedef struct Foo {int x;} Foo;` — the C7
failing input.  clang reports two top-level cursors, the struct
definition (extent `[8,27)`) and the typedef (extent `[0,31)`, nesting
the struct cursor). -/
private def tuTypedefFoo : TU :=
  { fileContents := [("t.c", "typedef struct Foo \x7bint x;\x7d Foo;")],
    cursor :=
      .node "t.c" .TRANSLATION_UNIT "" false
        ⟨⟨"t.c", 0⟩, ⟨"t.c", 32⟩⟩ []
        [.node "Foo" .STRUCT_DECL "c:@S@Foo" true
          ⟨⟨"t.c", 8⟩, ⟨"t.c", 27⟩⟩ []
          [.node "x" .FIELD_DECL "" false ⟨⟨"t.c", 20⟩, ⟨"t.c", 25⟩⟩ [] []],
         .node "Foo" .TYPEDEF_DECL "c:@T@Foo" true
          ⟨⟨"t.c", 0⟩, ⟨"t.c", 31⟩⟩ []
          [.node "Foo" .STRUCT_DECL "c:@S@Foo" true
            ⟨⟨"t.c", 8⟩, ⟨"t.c", 27⟩⟩ []
            [.node "x" .FIELD_DECL "" false ⟨⟨"t.c", 20⟩, ⟨"t.c", 25⟩⟩ [] []]]] }

/-- **C7 (code bug).**  The typedef arm's guard
`assert full_name != name` compares the *prefixed* tag name
(`"struct Foo"`) against the typedef's spelling (`"Foo"`); the two can
never be equal, so the intended fail-fast for a typedef named like its
own underlying tag is unreachable.  On `typedef struct Foo {int x;} Foo;`
the harvest succeeds — no abort — and the tag symbol `"struct Foo"` is
silently suppressed in favour of the typedef, its incoming edges
redirected to the typedef symbol. -/
theorem C7_typedef_tag_name_not_failfast :
    (extract_info_c tuTypedefFoo).toOption.map (fun r => pyKeys r.symbols) =
      some ["Foo"] ∧
    (extract_info_c tuTypedefFoo).toOption.map
        (fun r =>
          ((pyLookup r.complete_graph "struct Foo").getD []).map Symbol.name) =
      some ["Foo"] := by
  decide

/-! ## `src/ideas/init.py` -/

/-- The cursor observables read by `init.merge_symbols` and its callees:
the definition flag (`cursor.is_definition()`), the owning translation
unit's source path (`Path(cursor.translation_unit.spelling).resolve()`,
modelled as an already-resolved path string — `resolve` is the identity
on the resolved paths the priority list also holds), and the text that
`get_cursor_code` renders for the cursor. -/
structure CCursor where
  isDefinition : Bool
  tuSpelling : String
  code : String
  deriving DecidableEq, Repr

/-- A symbol as consumed by the merger: `utils.Symbol` whose `cursor`
slot holds a full cursor. -/
structure MSymbol where
  name : String
  cursor : CCursor
  decl : String := ""
  deriving DecidableEq, Repr

/-- Modelled from the spec: `get_cursor_code` is imported by `init.py`
from `ideas.ast` but its definition is not present under `src/`.  Per
the spec (§4.5: "emit its text"; §4.1 declaration-range rule), it
renders the source text of a cursor; we model it as the cursor's `code`
observable. -/
def get_cursor_code (c : CCursor) : String := c.code

/-- The message of the `NotImplementedError` raised by `merge_symbols`
for an unresolvable collision (`init.py` lines 279-281). -/
def mergeErrMsg (name global_source symbol_source : String) : String :=
  "Unable to handle symbol " ++ name ++
    " with multiple different definitions and unknown source priority!" ++
    "\n" ++ "Symbol found in " ++ global_source ++ " and " ++
    symbol_source ++ "."

/-- `init.merge_symbols`: fold the per-unit symbol tables into one global
table, resolving each name collision by the elif-chain of `init.py`
lines 234-281 (identical text → keep; definition over declaration;
priority-list membership; lower priority index; otherwise raise). -/
def merge_symbols (list_of_symbols : List (List (String × MSymbol)))
    (source_priority : Option (List String)) :
    Except String (List (String × MSymbol)) :=
  let sp := source_priority.getD []
  list_of_symbols.foldlM
    (fun gs symbols =>
      symbols.foldlM
        (fun gs nv =>
          let name := nv.1
          let symbol := nv.2
          match pyLookup gs name with
          | none => .ok (pyInsert gs name symbol)
          | some gsym =>
            let global_code := get_cursor_code gsym.cursor
            let code := get_cursor_code symbol.cursor
            if global_code = code then .ok gs
            else
              let global_source := gsym.cursor.tuSpelling
              let symbol_source := symbol.cursor.tuSpelling
              if gsym.cursor.isDefinition ∧ ¬ symbol.cursor.isDefinition then
                .ok gs
              else if ¬ gsym.cursor.isDefinition ∧ symbol.cursor.isDefinition then
                .ok (pyInsert gs name symbol)
              else if global_source ∈ sp ∧ symbol_source ∉ sp then
                .ok gs
              else if global_source ∉ sp ∧ symbol_source ∈ sp then
                .ok (pyInsert gs name symbol)
              else if global_source ∈ sp ∧ symbol_source ∈ sp ∧
                  sp.indexOf symbol_source < sp.indexOf global_source then
                .ok (pyInsert gs name symbol)
              else if global_source ∈ sp ∧ symbol_source ∈ sp ∧
                  sp.indexOf global_source < sp.indexOf symbol_source then
                .ok gs
              else
                .error (mergeErrMsg name global_source symbol_source))
        gs)
    []

/-- `init.reachable_subgraph`, with an explicit recursion-depth fuel
(`.error "RecursionError"` when exhausted, standing for Python's
unbounded recursion; `KeyError` when a requested name is not a key of
`dependencies`, exactly as `dependencies[name]` raises). -/
def reachable_subgraph :
    Nat → List (String × List String) → List String →
    Except String (List (String × List String))
  | 0, _, _ => .error "RecursionError: maximum recursion depth exceeded"
  | fuel + 1, dependencies, names =>
    names.foldlM
      (fun subgraph name =>
        match pyLookup dependencies name with
        | none => .error ("KeyError: " ++ name)
        | some nbrs => do
          let subgraph := pyInsert subgraph name nbrs
          let nested ← reachable_subgraph fuel dependencies nbrs
          pure (pyUpdate subgraph nested))
      []
termination_by structural fuel => fuel

/-! ## Claims about the merger (C4, C5) -/

/-- **C4.**  For every collision between a definition and a bare
declaration of the same name with differing code texts, `merge_symbols`
keeps the definition — whichever side arrives first, and for *every*
`source_priority` argument (absent, containing either source, or
containing both in either order): the definition/declaration branches of
the elif-chain precede every priority branch. -/
theorem C4_merge_prefers_definition (name : String) (sdef sdecl : MSymbol)
    (sp : Option (List String))
    (hcode : get_cursor_code sdef.cursor ≠ get_cursor_code sdecl.cursor)
    (hdef : sdef.cursor.isDefinition = true)
    (hdecl : sdecl.cursor.isDefinition = false) :
    merge_symbols [[(name, sdef)], [(name, sdecl)]] sp = .ok [(name, sdef)] ∧
    merge_symbols [[(name, sdecl)], [(name, sdef)]] sp = .ok [(name, sdef)] := by
  constructor
  · simp [merge_symbols, List.foldlM, Bind.bind, Except.bind, pure,
      Except.pure, pyLookup, pyInsert, hcode, hdef, hdecl]
  · simp [merge_symbols, List.foldlM, Bind.bind, Except.bind, pure,
      Except.pure, pyLookup, pyInsert, hcode.symm, hdef, hdecl]

theorem C4_merge_prefers_definition_witness :
    merge_symbols
        [[("dup", ⟨"dup", ⟨true, "a.c", "int dup()\x7breturn 1;\x7d"⟩, ""⟩)],
         [("dup", ⟨"dup", ⟨false, "b.c", "int dup();"⟩, ""⟩)]] none =
      .ok [("dup", ⟨"dup", ⟨true, "a.c", "int dup()\x7breturn 1;\x7d"⟩, ""⟩)] ∧
    merge_symbols
        [[("dup", ⟨"dup", ⟨false, "b.c", "int dup();"⟩, ""⟩)],
         [("dup", ⟨"dup", ⟨true, "a.c", "int dup()\x7breturn 1;\x7d"⟩, ""⟩)]] none =
      .ok [("dup", ⟨"dup", ⟨true, "a.c", "int dup()\x7breturn 1;\x7d"⟩, ""⟩)] :=
  C4_merge_prefers_definition "dup"
    ⟨"dup", ⟨true, "a.c", "int dup()\x7breturn 1;\x7d"⟩, ""⟩
    ⟨"dup", ⟨false, "b.c", "int dup();"⟩, ""⟩ none
    (by decide) (by decide) (by decide)

/-- **C5.**  For every collision between two symbols of the same name
with differing code texts where both sides are definitions (or both bare
declarations) and neither side's source file is in the priority list,
`merge_symbols` raises the `NotImplementedError` whose message names the
symbol and both source files — it never silently keeps either side. -/
theorem C5_merge_unresolvable_raises (name : String) (s1 s2 : MSymbol)
    (sp : Option (List String))
    (hcode : get_cursor_code s1.cursor ≠ get_cursor_code s2.cursor)
    (hdef : s1.cursor.isDefinition = s2.cursor.isDefinition)
    (hs1 : s1.cursor.tuSpelling ∉ sp.getD [])
    (hs2 : s2.cursor.tuSpelling ∉ sp.getD []) :
    merge_symbols [[(name, s1)], [(name, s2)]] sp =
      .error (mergeErrMsg name s1.cursor.tuSpelling s2.cursor.tuSpelling) := by
  cases hd1 : s1.cursor.isDefinition with
  | true =>
    have hd2 : s2.cursor.isDefinition = true := by rw [← hdef, hd1]
    simp [merge_symbols, List.foldlM, Bind.bind, Except.bind, pure,
      Except.pure, pyLookup, pyInsert, hcode, hd1, hd2, hs1, hs2]
  | false =>
    have hd2 : s2.cursor.isDefinition = false := by rw [← hdef, hd1]
    simp [merge_symbols, List.foldlM, Bind.bind, Except.bind, pure,
      Except.pure, pyLookup, pyInsert, hcode, hd1, hd2, hs1, hs2]

theorem C5_merge_unresolvable_raises_witness :
    merge_symbols
        [[("helper", ⟨"helper", ⟨true, "u1.c", "int helper()\x7breturn 1;\x7d"⟩, ""⟩)],
         [("helper", ⟨"helper", ⟨true, "u2.c", "int helper()\x7breturn 2;\x7d"⟩, ""⟩)]]
        none =
      .error (mergeErrMsg "helper" "u1.c" "u2.c") :=
  C5_merge_unresolvable_raises "helper"
    ⟨"helper", ⟨true, "u1.c", "int helper()\x7breturn 1;\x7d"⟩, ""⟩
    ⟨"helper", ⟨true, "u2.c", "int helper()\x7breturn 2;\x7d"⟩, ""⟩ none
    (by decide) (by decide) (by decide) (by decide)

/-! ## Claims about the subsetter (C8) -/

theorem mem_pyKeys_lookup {α : Type} :
    ∀ (d : List (String × α)) (k : String), k ∈ pyKeys d →
      ∃ v, pyLookup d k = some v := by
  intro d
  induction d with
  | nil => intro k hk; simp [pyKeys] at hk
  | cons p rest ih =>
    intro k hk
    rcases p with ⟨a, w⟩
    by_cases ha : a = k
    · exact ⟨w, by simp [pyLookup, ha]⟩
    · simp [pyKeys, Ne.symm ha] at hk
      obtain ⟨v, hv⟩ := ih k (by simpa [pyKeys] using hk)
      exact ⟨v, by simp [pyLookup, ha, hv]⟩

theorem pyKeys_pyInsert_iff {α : Type} :
    ∀ (d : List (String × α)) (key : String) (v : α) (k : String),
      k ∈ pyKeys (pyInsert d key v) ↔ k = key ∨ k ∈ pyKeys d := by
  intro d
  induction d with
  | nil => intro key v k; simp [pyInsert, pyKeys]
  | cons p rest ih =>
    intro key v k
    rcases p with ⟨a, w⟩
    by_cases ha : a = key
    · subst ha
      simp [pyInsert, pyKeys]
    · simp only [pyInsert, if_neg ha]
      simp [pyKeys] at ih ⊢
      rw [ih]
      tauto

theorem pyKeys_pyUpdate_iff {α : Type} :
    ∀ (d2 d : List (String × α)) (k : String),
      k ∈ pyKeys (pyUpdate d d2) ↔ k ∈ pyKeys d ∨ k ∈ pyKeys d2 := by
  intro d2
  induction d2 with
  | nil => intro d k; simp [pyUpdate, pyKeys]
  | cons p t ih =>
    intro d k
    rcases p with ⟨a, w⟩
    have : pyUpdate d ((a, w) :: t) = pyUpdate (pyInsert d a w) t := rfl
    rw [this, ih]
    rw [pyKeys_pyInsert_iff]
    simp [pyKeys]
    tauto

/-- An edge of the post-merge dependency graph: `b` occurs in the
neighbor list stored for `a`. -/
def depEdge (deps : List (String × List String)) (a b : String) : Prop :=
  ∃ l, pyLookup deps a = some l ∧ b ∈ l

/-- Every listed neighbor is itself a key of the graph (no dangling
edges). -/
def closedGraph (deps : List (String × List String)) : Prop :=
  ∀ p ∈ deps, ∀ b ∈ p.2, b ∈ pyKeys deps

/-- Acyclicity, witnessed by a rank strictly decreasing along edges. -/
def acyclicRanked (deps : List (String × List String)) : Prop :=
  ∃ r : String → Nat, ∀ p ∈ deps, ∀ b ∈ p.2, r b < r p.1

theorem foldl_max_init : ∀ (l : List Nat) (a : Nat), a ≤ l.foldl max a := by
  intro l
  induction l with
  | nil => intro a; simp
  | cons x t ih =>
    intro a
    simp only [List.foldl_cons]
    exact le_trans (le_max_left a x) (ih (max a x))

theorem foldl_max_mem :
    ∀ (l : List Nat) (x : Nat), x ∈ l → ∀ a, x ≤ l.foldl max a := by
  intro l
  induction l with
  | nil => intro x hx; cases hx
  | cons y t ih =>
    intro x hx a
    rcases List.mem_cons.mp hx with rfl | hmem
    · simp only [List.foldl_cons]
      exact le_trans (le_max_right a x) (foldl_max_init t (max a x))
    · simp only [List.foldl_cons]
      exact ih x hmem (max a y)

/-- Fuel adequacy and correctness of `reachable_subgraph` on closed,
rank-acyclic graphs: with fuel exceeding every requested rank by two,
the call succeeds, its key set contains every requested name, and every
key is reachable from a requested name. -/
theorem reachable_subgraph_ok (deps : List (String × List String))
    (r : String → Nat) (hrank : ∀ p ∈ deps, ∀ b ∈ p.2, r b < r p.1)
    (hclosed : closedGraph deps) :
    ∀ (fuel : Nat), 0 < fuel →
      ∀ (names : List String),
      (∀ n ∈ names, n ∈ pyKeys deps ∧ r n + 1 < fuel) →
      ∃ sub, reachable_subgraph fuel deps names = .ok sub ∧
        (∀ n ∈ names, n ∈ pyKeys sub) ∧
        (∀ k ∈ pyKeys sub,
          ∃ n ∈ names, Relation.ReflTransGen (depEdge deps) n k) := by
  intro fuel
  induction fuel with
  | zero => intro h0; exact absurd h0 (lt_irrefl 0)
  | succ f ih =>
    intro _ names hnames
    have hfold : ∀ (ns : List String),
        (∀ n ∈ ns, n ∈ pyKeys deps ∧ r n + 1 < f + 1) →
        ∀ acc : List (String × List String),
        ∃ sub,
          ns.foldlM
            (fun subgraph name =>
              match pyLookup deps name with
              | none => Except.error ("KeyError: " ++ name)
              | some nbrs => do
                let subgraph := pyInsert subgraph name nbrs
                let nested ← reachable_subgraph f deps nbrs
                pure (pyUpdate subgraph nested))
            acc = .ok sub ∧
          (∀ k ∈ pyKeys sub, k ∈ pyKeys acc ∨
            ∃ n ∈ ns, Relation.ReflTransGen (depEdge deps) n k) ∧
          (∀ n ∈ ns, n ∈ pyKeys sub) ∧
          (∀ k ∈ pyKeys acc, k ∈ pyKeys sub) := by
      intro ns
      induction ns with
      | nil =>
        intro _ acc
        refine ⟨acc, ?_, ?_, ?_, ?_⟩
        · rfl
        · intro k hk; exact Or.inl hk
        · intro n hn; cases hn
        · intro k hk; exact hk
      | cons name rest ihn =>
        intro hns acc
        obtain ⟨hmem, hfuel⟩ := hns name (List.mem_cons_self _ _)
        obtain ⟨nbrs, hlk⟩ := mem_pyKeys_lookup deps name hmem
        have hpd := pyLookup_mem deps name nbrs hlk
        have hnbrs : ∀ b ∈ nbrs, b ∈ pyKeys deps ∧ r b + 1 < f := by
          intro b hb
          refine ⟨hclosed _ hpd b hb, ?_⟩
          have hlt : r b < r name := by
            have := hrank (name, nbrs) hpd b hb
            simpa using this
          omega
        have h0f : 0 < f := by omega
        obtain ⟨subr, hokr, _, hreachr⟩ := ih h0f nbrs hnbrs
        set acc2 := pyUpdate (pyInsert acc name nbrs) subr with hacc2
        obtain ⟨sub, hoks, hk1, hk2, hk3⟩ :=
          ihn (fun n hn => hns n (List.mem_cons_of_mem _ hn)) acc2
        refine ⟨sub, ?_, ?_, ?_, ?_⟩
        · rw [List.foldlM_cons, hlk]
          simp only [Bind.bind, Except.bind, hokr, pure, Except.pure]
          exact hoks
        · intro k hk
          rcases hk1 k hk with hacc | ⟨n, hn, hr⟩
          · rw [hacc2, pyKeys_pyUpdate_iff] at hacc
            rcases hacc with hins | hsubr
            · rw [pyKeys_pyInsert_iff] at hins
              rcases hins with rfl | hold
              · exact Or.inr ⟨_, List.mem_cons_self _ _,
                  Relation.ReflTransGen.refl⟩
              · exact Or.inl hold
            · obtain ⟨b, hb, hbr⟩ := hreachr k hsubr
              exact Or.inr ⟨name, List.mem_cons_self _ _,
                Relation.ReflTransGen.head ⟨nbrs, hlk, hb⟩ hbr⟩
          · exact Or.inr ⟨n, List.mem_cons_of_mem _ hn, hr⟩
        · intro n hn
          rcases List.mem_cons.mp hn with rfl | hrest
          · apply hk3
            rw [hacc2, pyKeys_pyUpdate_iff, pyKeys_pyInsert_iff]
            exact Or.inl (Or.inl rfl)
          · exact hk2 n hrest
        · intro k hk
          apply hk3
          rw [hacc2, pyKeys_pyUpdate_iff, pyKeys_pyInsert_iff]
          exact Or.inl (Or.inr hk)
    obtain ⟨sub, hok, hk1, hk2, _⟩ := hfold names hnames []
    refine ⟨sub, ?_, hk2, ?_⟩
    · rw [reachable_subgraph]
      exact hok
    · intro k hk
      rcases hk1 k hk with habs | h
      · simp [pyKeys] at habs
      · exact h

/-- **C8 (counterexample).**  A dangling neighbor defeats the claim:
`{A: [B]}` is acyclic and the root `A` is a key, yet
`reachable_subgraph({A: [B]}, [A])` recurses into `B` and raises
`KeyError: B` — it never returns a subgraph, at any recursion depth. -/
theorem C8_counterexample :
    ¬ ∃ (fuel : Nat) (sub : List (String × List String)),
        reachable_subgraph fuel [("A", ["B"])] ["A"] = .ok sub := by
  rintro ⟨fuel, sub, h⟩
  rcases fuel with _ | f
  · simp [reachable_subgraph] at h
  · rcases f with _ | f
    · simp [reachable_subgraph, List.foldlM, pyLookup, Bind.bind,
        Except.bind, pure, Except.pure] at h
    · simp [reachable_subgraph, List.foldlM, pyLookup, Bind.bind,
        Except.bind, pure, Except.pure] at h

/-- **C8 (amended).**  With the hypothesis the counterexample forces —
the graph must be *closed* (every listed neighbor is itself a key) —
the claim holds: for every closed, acyclic graph and root set whose
roots are keys, some recursion depth makes `reachable_subgraph` return a
subgraph whose key set contains every root, and every key of the result
is reachable from a root by zero or more dependency edges. -/
theorem C8_amended_reachable_subgraph (deps : List (String × List String))
    (names : List String) (hacyc : acyclicRanked deps)
    (hclosed : closedGraph deps)
    (hroots : ∀ n ∈ names, n ∈ pyKeys deps) :
    ∃ (fuel : Nat) (sub : List (String × List String)),
      reachable_subgraph fuel deps names = .ok sub ∧
      (∀ n ∈ names, n ∈ pyKeys sub) ∧
      (∀ k ∈ pyKeys sub,
        ∃ n ∈ names, Relation.ReflTransGen (depEdge deps) n k) := by
  obtain ⟨r, hrank⟩ := hacyc
  have hb : ∀ n ∈ names,
      n ∈ pyKeys deps ∧ r n + 1 < (names.map r).foldl max 0 + 2 := by
    intro n hn
    refine ⟨hroots n hn, ?_⟩
    have : r n ≤ (names.map r).foldl max 0 :=
      foldl_max_mem (names.map r) (r n) (List.mem_map.mpr ⟨n, hn, rfl⟩) 0
    omega
  obtain ⟨sub, hok, hk1, hk2⟩ :=
    reachable_subgraph_ok deps r hrank hclosed
      ((names.map r).foldl max 0 + 2) (by omega) names hb
  exact ⟨(names.map r).foldl max 0 + 2, sub, hok, hk1, hk2⟩

theorem C8_amended_reachable_subgraph_witness :
    ∃ (fuel : Nat) (sub : List (String × List String)),
      reachable_subgraph fuel [("A", ["B"]), ("B", [])] ["A"] = .ok sub ∧
      (∀ n ∈ ["A"], n ∈ pyKeys sub) ∧
      (∀ k ∈ pyKeys sub,
        ∃ n ∈ ["A"],
          Relation.ReflTransGen (depEdge [("A", ["B"]), ("B", [])]) n k) :=
  C8_amended_reachable_subgraph [("A", ["B"]), ("B", [])] ["A"]
    ⟨fun n => if n = "A" then 1 else 0, by decide⟩
    (by unfold closedGraph; decide) (by decide)

/-! ## Claim about the emission orderer (C9) -/

/-- Append an element to a list if not already present — the node
registration of `graphlib`'s `TopologicalSorter.add`. -/
def addNew (a : List String) (x : String) : List String :=
  if x ∈ a then a else a ++ [x]

/-- Modelled from the spec: `init` orders symbols with CPython's
`graphlib.TopologicalSorter(dependencies).static_order()` (stdlib, not
part of this repository; spec §4.5: "topologically order all names
(Kahn or DFS-based)").  `kahnNodes` registers the sorter's nodes in
CPython's insertion order: for each `(node, predecessors)` item, the
node first and then its predecessors, skipping already-known names. -/
def kahnNodes (g : List (String × List String)) : List String :=
  g.foldl (fun acc p => p.2.foldl addNew (addNew acc p.1)) []

/-- The predecessors (dependencies) recorded for a name; names without
an entry are leaves. -/
def preds (g : List (String × List String)) (n : String) : List String :=
  (pyLookup g n).getD []

/-- Batched Kahn rounds of `TopologicalSorter.static_order`: each round
emits every not-yet-emitted node all of whose predecessors are emitted
(CPython emits exactly these batches; the order *inside* one batch may
differ from CPython's ready-list order, which no claim depends on).  An
empty batch with nodes remaining is a cycle — CPython raises
`CycleError`, modelled as `none`.  The fuel is the round count;
`static_order` supplies the node count, which suffices because every
successful round emits at least one node. -/
def kahnGo (g : List (String × List String)) :
    Nat → List String → List String → Option (List String)
  | 0, emitted, remaining => if remaining = [] then some emitted else none
  | fuel + 1, emitted, remaining =>
    let batch := remaining.filter
      (fun n => (preds g n).all (fun d => decide (d ∈ emitted)))
    if batch = [] then
      if remaining = [] then some emitted else none
    else
      kahnGo g fuel (emitted ++ batch)
        (remaining.filter
          (fun n => ! (preds g n).all (fun d => decide (d ∈ emitted))))

/-- `TopologicalSorter(g).static_order()`. -/
def static_order (g : List (String × List String)) : Option (List String) :=
  kahnGo g (kahnNodes g).length [] (kahnNodes g)

theorem mem_addNew_self (a : List String) (x : String) : x ∈ addNew a x := by
  unfold addNew
  split
  · assumption
  · simp

theorem mem_addNew_of_mem (a : List String) (x y : String) (h : y ∈ a) :
    y ∈ addNew a x := by
  unfold addNew
  split
  · exact h
  · simp [h]

theorem mem_foldl_addNew_of_mem :
    ∀ (l : List String) (a : List String) (y : String), y ∈ a →
      y ∈ l.foldl addNew a := by
  intro l
  induction l with
  | nil => intro a y h; simpa using h
  | cons x t ih =>
    intro a y h
    simp only [List.foldl_cons]
    exact ih _ y (mem_addNew_of_mem a x y h)

theorem mem_foldl_addNew_of_mem_list :
    ∀ (l : List String) (a : List String) (x : String), x ∈ l →
      x ∈ l.foldl addNew a := by
  intro l
  induction l with
  | nil => intro a x h; cases h
  | cons z t ih =>
    intro a x h
    rcases List.mem_cons.mp h with rfl | hmem
    · simp only [List.foldl_cons]
      exact mem_foldl_addNew_of_mem t _ x (mem_addNew_self a x)
    · simp only [List.foldl_cons]
      exact ih _ x hmem

theorem kahnNodes_complete (g : List (String × List String)) :
    ∀ p ∈ g, p.1 ∈ kahnNodes g ∧ ∀ b ∈ p.2, b ∈ kahnNodes g := by
  have hmono : ∀ (gs : List (String × List String)) (acc : List String)
      (y : String), y ∈ acc →
      y ∈ gs.foldl (fun acc p => p.2.foldl addNew (addNew acc p.1)) acc := by
    intro gs
    induction gs with
    | nil => intro acc y h; simpa using h
    | cons q t ih =>
      intro acc y h
      simp only [List.foldl_cons]
      exact ih _ y
        (mem_foldl_addNew_of_mem q.2 _ y (mem_addNew_of_mem acc q.1 y h))
  have hstep : ∀ (gs : List (String × List String)) (acc : List String)
      (p : String × List String), p ∈ gs →
      p.1 ∈ gs.foldl (fun acc p => p.2.foldl addNew (addNew acc p.1)) acc ∧
      ∀ b ∈ p.2,
        b ∈ gs.foldl (fun acc p => p.2.foldl addNew (addNew acc p.1)) acc := by
    intro gs
    induction gs with
    | nil => intro acc p h; cases h
    | cons q t ih =>
      intro acc p h
      rcases List.mem_cons.mp h with rfl | hmem
      · simp only [List.foldl_cons]
        constructor
        · exact hmono t _ p.1
            (mem_foldl_addNew_of_mem p.2 _ p.1 (mem_addNew_self acc p.1))
        · intro b hb
          exact hmono t _ b (mem_foldl_addNew_of_mem_list p.2 _ b hb)
      · simp only [List.foldl_cons]
        exact ih _ p hmem
  intro p hp
  exact hstep g [] p hp

theorem preds_ne_nil_mem_nodes (g : List (String × List String)) (n : String)
    (h : preds g n ≠ []) : n ∈ kahnNodes g := by
  unfold preds at h
  cases hlk : pyLookup g n with
  | none => rw [hlk] at h; simp at h
  | some l => exact (kahnNodes_complete g (n, l) (pyLookup_mem g n l hlk)).1

theorem preds_mem_nodes (g : List (String × List String)) (n d : String)
    (h : d ∈ preds g n) : d ∈ kahnNodes g := by
  unfold preds at h
  cases hlk : pyLookup g n with
  | none => rw [hlk] at h; simp at h
  | some l =>
    rw [hlk] at h
    exact (kahnNodes_complete g (n, l) (pyLookup_mem g n l hlk)).2 d h

/-- Soundness of the Kahn rounds: on success, every node of the output
has all its predecessors in the output at strictly smaller indices, and
the output covers both the already-emitted and the remaining nodes. -/
theorem kahnGo_sound (g : List (String × List String)) :
    ∀ (fuel : Nat) (emitted remaining ord : List String),
      kahnGo g fuel emitted remaining = some ord →
      (∀ n ∈ remaining, n ∉ emitted) →
      (∀ n ∈ emitted, ∀ d ∈ preds g n,
        d ∈ emitted ∧ emitted.indexOf d < emitted.indexOf n) →
      (∀ n ∈ ord, ∀ d ∈ preds g n,
        d ∈ ord ∧ ord.indexOf d < ord.indexOf n) ∧
      (∀ n ∈ emitted, n ∈ ord) ∧ (∀ n ∈ remaining, n ∈ ord) := by
  intro fuel
  induction fuel with
  | zero =>
    intro emitted remaining ord h hdisj hinv
    rw [kahnGo] at h
    split at h
    · rename_i hrem
      cases h
      subst hrem
      exact ⟨hinv, fun n hn => hn, fun n hn => by cases hn⟩
    · cases h
  | succ f ih =>
    intro emitted remaining ord h hdisj hinv
    rw [kahnGo] at h
    split at h
    · -- empty batch
      split at h
      · rename_i hrem
        cases h
        subst hrem
        exact ⟨hinv, fun n hn => hn, fun n hn => by cases hn⟩
      · cases h
    · rename_i hbatch
      -- the recursive round
      have hdisj' : ∀ n ∈ remaining.filter
          (fun n => ! (preds g n).all (fun d => decide (d ∈ emitted))),
          n ∉ emitted ++ remaining.filter
            (fun n => (preds g n).all (fun d => decide (d ∈ emitted))) := by
        intro n hn
        have hn' := List.mem_filter.mp hn
        intro hmem
        rcases List.mem_append.mp hmem with h1 | h2
        · exact hdisj n hn'.1 h1
        · have hq := (List.mem_filter.mp h2).2
          have hp := hn'.2
          simp at hp hq
          obtain ⟨x, hx1, hx2⟩ := hp
          exact hx2 (hq x hx1)
      have hinv' : ∀ n ∈ emitted ++ remaining.filter
          (fun n => (preds g n).all (fun d => decide (d ∈ emitted))),
          ∀ d ∈ preds g n,
          d ∈ emitted ++ remaining.filter
            (fun n => (preds g n).all (fun d => decide (d ∈ emitted))) ∧
          (emitted ++ remaining.filter
            (fun n => (preds g n).all (fun d => decide (d ∈ emitted)))).indexOf
              d <
          (emitted ++ remaining.filter
            (fun n => (preds g n).all (fun d => decide (d ∈ emitted)))).indexOf
              n := by
        intro n hn d hd
        rcases List.mem_append.mp hn with hold | hnew
        · obtain ⟨hd1, hd2⟩ := hinv n hold d hd
          refine ⟨List.mem_append.mpr (Or.inl hd1), ?_⟩
          rw [List.indexOf_append_of_mem hd1, List.indexOf_append_of_mem hold]
          exact hd2
        · have hnf := List.mem_filter.mp hnew
          have hdall : d ∈ emitted := by
            have := hnf.2
            simp only [List.all_eq_true] at this
            simpa using this d hd
          refine ⟨List.mem_append.mpr (Or.inl hdall), ?_⟩
          rw [List.indexOf_append_of_mem hdall]
          have hnne : n ∉ emitted := hdisj n hnf.1
          rw [List.indexOf_append_of_not_mem hnne]
          have h1 : emitted.indexOf d < emitted.length :=
            List.indexOf_lt_length.mpr hdall
          omega
      obtain ⟨hordinv, hmem1, hmem2⟩ := ih _ _ ord h hdisj' hinv'
      refine ⟨hordinv, ?_, ?_⟩
      · intro n hn
        exact hmem1 n (List.mem_append.mpr (Or.inl hn))
      · intro n hn
        by_cases hp : (preds g n).all (fun d => decide (d ∈ emitted)) = true
        · exact hmem1 n
            (List.mem_append.mpr (Or.inr (List.mem_filter.mpr ⟨hn, hp⟩)))
        · exact hmem2 n (List.mem_filter.mpr ⟨hn, by simpa using hp⟩)

/-- The nonempty-list minimum used by the completeness argument. -/
theorem exists_min_im {α : Type} (r : α → Nat) (l : List α) (h : l ≠ []) :
    ∃ a ∈ l, ∀ b ∈ l, r a ≤ r b := by
  induction l with
  | nil => exact absurd rfl h
  | cons x xs ih =>
    cases xs with
    | nil => exact ⟨x, List.mem_singleton.mpr rfl, by simp⟩
    | cons y ys =>
      obtain ⟨a, ha, hmin⟩ := ih (by simp)
      by_cases hxa : r x ≤ r a
      · refine ⟨x, List.mem_cons_self _ _, ?_⟩
        intro b hb
        rcases List.mem_cons.mp hb with h1 | h2
        · simp [h1]
        · exact le_trans hxa (hmin b h2)
      · refine ⟨a, List.mem_cons_of_mem _ ha, ?_⟩
        intro b hb
        rcases List.mem_cons.mp hb with h1 | h2
        · subst h1; omega
        · exact hmin b h2

/-- Completeness of the Kahn rounds on rank-acyclic graphs: while nodes
remain, the minimal-rank remaining node is ready, so the rounds never
stall, and `remaining.length` rounds always suffice. -/
theorem kahnGo_complete (g : List (String × List String)) (r : String → Nat)
    (hrank : ∀ n d, d ∈ preds g n → r d < r n) :
    ∀ (fuel : Nat) (emitted remaining : List String),
      remaining.length ≤ fuel →
      (∀ n ∈ remaining, ∀ d ∈ preds g n, d ∈ emitted ∨ d ∈ remaining) →
      ∃ ord, kahnGo g fuel emitted remaining = some ord := by
  intro fuel
  induction fuel with
  | zero =>
    intro emitted remaining hlen _
    have : remaining = [] := List.length_eq_zero.mp (Nat.le_zero.mp hlen)
    subst this
    exact ⟨emitted, by simp [kahnGo]⟩
  | succ f ih =>
    intro emitted remaining hlen hclosed
    rcases hrem : remaining with _ | ⟨x0, rest⟩
    · exact ⟨emitted, by simp [kahnGo]⟩
    · rw [← hrem]
      have hne : remaining ≠ [] := by rw [hrem]; simp
      obtain ⟨x, hx, hxmin⟩ := exists_min_im r remaining hne
      have hxready : (preds g x).all (fun d => decide (d ∈ emitted)) = true := by
        simp only [List.all_eq_true]
        intro d hd
        rcases hclosed x hx d hd with hem | hrm
        · simpa using hem
        · exact absurd (hxmin d hrm) (by have := hrank x d hd; omega)
      rw [kahnGo]
      split
      · rename_i hbatch
        exact absurd hbatch
          (List.ne_nil_of_mem (List.mem_filter.mpr ⟨hx, hxready⟩))
      · rename_i hbatch
        apply ih
        · have hlt : (remaining.filter
              (fun n => ! (preds g n).all (fun d => decide (d ∈ emitted)))).length <
              remaining.length := by
            rw [List.length_filter_lt_length_iff_exists]
            exact ⟨x, hx, by simp [hxready]⟩
          omega
        · intro n hn d hd
          have hn' := List.mem_filter.mp hn
          rcases hclosed n hn'.1 d hd with hem | hrm
          · exact Or.inl (List.mem_append.mpr (Or.inl hem))
          · by_cases hp : (preds g d).all (fun e => decide (e ∈ emitted)) = true
            · exact Or.inl (List.mem_append.mpr
                (Or.inr (List.mem_filter.mpr ⟨hrm, hp⟩)))
            · exact Or.inr (List.mem_filter.mpr ⟨hrm, by simpa using hp⟩)

/-- **C9.**  For every acyclic dependency graph, the emission order
`TopologicalSorter(dependencies).static_order()` exists and places each
name after every name it transitively depends on; in particular the
graph `{A: [B], B: [C], C: []}` yields exactly `[C, B, A]`. -/
theorem C9_topological_emission :
    (∀ g : List (String × List String), acyclicRanked g →
      ∃ ord, static_order g = some ord ∧
        ∀ n d, Relation.TransGen (fun a b => b ∈ preds g a) n d →
          d ∈ ord ∧ n ∈ ord ∧ ord.indexOf d < ord.indexOf n) ∧
    static_order [("A", ["B"]), ("B", ["C"]), ("C", [])] =
      some ["C", "B", "A"] := by
  constructor
  · intro g hacyc
    obtain ⟨r, hr⟩ := hacyc
    have hrank : ∀ n d, d ∈ preds g n → r d < r n := by
      intro n d hd
      unfold preds at hd
      cases hlk : pyLookup g n with
      | none => rw [hlk] at hd; simp at hd
      | some l =>
        rw [hlk] at hd
        have := hr (n, l) (pyLookup_mem g n l hlk) d hd
        simpa using this
    obtain ⟨ord, hord⟩ := kahnGo_complete g r hrank (kahnNodes g).length []
      (kahnNodes g) (le_refl _)
      (fun n _ d hd => Or.inr (preds_mem_nodes g n d hd))
    obtain ⟨hsound, _, hcover⟩ := kahnGo_sound g (kahnNodes g).length []
      (kahnNodes g) ord hord (by simp)
      (by intro n hn; cases hn)
    refine ⟨ord, hord, ?_⟩
    intro n d htg
    induction htg with
    | single h =>
      have hn : n ∈ ord :=
        hcover n (preds_ne_nil_mem_nodes g n (List.ne_nil_of_mem h))
      obtain ⟨hd1, hd2⟩ := hsound n hn _ h
      exact ⟨hd1, hn, hd2⟩
    | tail htg1 hstep ih1 =>
      obtain ⟨hb1, hn1, hlt1⟩ := ih1
      obtain ⟨hc1, hlt2⟩ := hsound _ hb1 _ hstep
      exact ⟨hc1, hn1, lt_trans hlt2 hlt1⟩
  · decide

theorem C9_topological_emission_witness :
    ∃ ord,
      static_order [("A", ["B"]), ("B", ["C"]), ("C", [])] = some ord ∧
      ∀ n d,
        Relation.TransGen
          (fun a b => b ∈ preds [("A", ["B"]), ("B", ["C"]), ("C", [])] a)
          n d →
        d ∈ ord ∧ n ∈ ord ∧ ord.indexOf d < ord.indexOf n :=
  C9_topological_emission.1 [("A", ["B"]), ("B", ["C"]), ("C", [])]
    ⟨fun n => if n = "A" then 2 else if n = "B" then 1 else 0, by decide⟩

end Ideas
